import Mathlib

/-!
Shallow embedding of `src/mindlessgen/molecules/generate_molecule.py`.

The ambient numpy pseudo-random source is modelled by an explicit record of
draw streams (`RandSrc`): each call site of `np.random.*` in the Python code
reads from its own stream.  An integer draw `np.random.randint(lo, hi)` is
modelled by `lo + x % (hi - lo)` where `x` is the raw stream value, so every
value in the half-open range `[lo, hi)` is realizable and the embedded
function is total in the stream.  `np.random.choice(lst)` is modelled by
indexing the list with a raw draw modulo the list length; on an empty list
the Python call raises `ValueError`, modelled by `Option.none`.
`np.random.rand()` draws are modelled by rationals (realizable values lie in
`[0,1)`).

The two unbounded `while` loops of `generate_atom_list` and the rejection
loop of `generate_coordinates` are modelled with an explicit fuel bound on
the number of loop iterations: `none` means the loop was still running when
the fuel ran out, so `(∀ fuel, … = none)` states that the Python loop never
terminates on that input.  The deterministically terminating metal-reduction
`while` loops are also given fuel, instantiated at a provably sufficient
amount at their unique call sites.

Counts are natural numbers (numpy integer array entries, never negative in
any reachable state); the `nmetals` running counters are integers, as in the
source.  Coordinates are rationals; the comparison `norm(d) < threshold`
from `check_distances` is embedded by the exact equivalence
`sqrt s < t ↔ 0 < t ∧ s < t²` (valid for `s ≥ 0`, and squared norms are
nonnegative), keeping the definition executable over `ℚ`.
-/

namespace MindlessGen

/-- Configuration fields of `GenerateConfig` consumed by the two samplers.
Per spec §6 the count bounds of `element_composition` are nonnegative
integers; the map is a Python dict, embedded as an association list
(key, (optional min, optional max)) in iteration order. -/
structure GenerateConfig where
  min_num_atoms : ℕ
  max_num_atoms : ℕ
  forbidden_elements : List ℕ
  element_composition : List (ℕ × (Option ℕ × Option ℕ))
  init_coord_scaling : ℚ
  dist_threshold : ℚ
  increase_scaling_factor : ℚ

/-- Streams of raw pseudo-random draws, one stream per `np.random.*` call
site of `generate_atom_list`. -/
structure RandSrc where
  nrounds : ℕ
  addChoice : ℕ → ℕ
  addCount : ℕ → ℕ
  pbElem : ℕ → ℕ
  pbCount : ℕ → ℕ
  hdraw : ℚ
  growChoice : ℕ → ℕ
  shrinkDraw : ℕ → ℕ

/-- `MAX_ELEM = 86` from the source. -/
def MAX_ELEM : ℕ := 86

/-- `valid_elems = set(range(0, MAX_ELEM)) - set(cfg.forbidden_elements)`,
as a list (the Python code materializes it with `list(valid_elems)`). -/
def validElems (cfg : GenerateConfig) : List ℕ :=
  (List.range MAX_ELEM).filter (fun i => ! cfg.forbidden_elements.contains i)

/-- `np.random.choice(lst)` with raw draw `k`: an arbitrary element of the
list; `none` on the empty list (Python raises `ValueError`). -/
def choose (l : List ℕ) (k : ℕ) : Option ℕ :=
  l.get? (k % l.length)

/-- `np.sum(natoms)` over the 102-slot count array. -/
def total (natoms : ℕ → ℕ) : ℕ :=
  ∑ i ∈ Finset.range 102, natoms i

/-- Literal alkali list from `get_alkali_metals`. -/
def get_alkali_metals : List ℕ := [2, 10, 18, 36, 54]

/-- Literal alkaline-earth list from `get_alkaline_earth_metals`. -/
def get_alkaline_earth_metals : List ℕ := [3, 11, 19, 37, 55]

/-- `list(range(20, 30))` from `get_three_d_metals`. -/
def get_three_d_metals : List ℕ := List.range' 20 10

/-- `list(range(38, 48))` from `get_four_d_metals`. -/
def get_four_d_metals : List ℕ := List.range' 38 10

/-- `list(range(71, 80))` from `get_five_d_metals`. -/
def get_five_d_metals : List ℕ := List.range' 71 9

/-- `list(range(56, 71))` from `get_lanthanides`. -/
def get_lanthanides : List ℕ := List.range' 56 15

/-- `group_one_two = get_alkali_metals() + get_alkaline_earth_metals()`. -/
def group_one_two : List ℕ := get_alkali_metals ++ get_alkaline_earth_metals

/-- `other_metals`: concatenation of the 3d, 4d, 5d and lanthanide lists. -/
def other_metals : List ℕ :=
  get_three_d_metals ++ get_four_d_metals ++ get_five_d_metals ++ get_lanthanides

/-- Running metal counter: `nmetals = Σ_{i ∈ group} natoms[i]` (an `int`
variable in the source). -/
def groupSum (g : List ℕ) (natoms : ℕ → ℕ) : ℤ :=
  (g.map fun i => (natoms i : ℤ)).sum

/-- One `for i in group` scan of the metal-reduction loop body: decrement
`natoms[i]` (and the running counter) for each group member with a nonzero
count, breaking as soon as the counter reaches 3. -/
def scanDec : List ℕ → (ℕ → ℕ) → ℤ → ((ℕ → ℕ) × ℤ)
  | [], natoms, nm => (natoms, nm)
  | i :: rest, natoms, nm =>
    let natoms' := if 0 < natoms i then Function.update natoms i (natoms i - 1) else natoms
    let nm' := if 0 < natoms i then nm - 1 else nm
    if nm' ≤ 3 then (natoms', nm') else scanDec rest natoms' nm'

/-- `while nmetals > 3:` loop around `scanDec`, with fuel bounding the
number of iterations. -/
def metalLoopF (g : List ℕ) (fuel : ℕ) (natoms : ℕ → ℕ) (nm : ℤ) :
    Option ((ℕ → ℕ) × ℤ) :=
  if 3 < nm then
    match fuel with
    | 0 => none
    | f + 1 => metalLoopF g f (scanDec g natoms nm).1 (scanDec g natoms nm).2
  else some (natoms, nm)

/-- One metal-abundance-limiting pass: compute the group sum and run the
reduction loop.  The fuel `(groupSum g natoms).toNat` is sufficient (proved
below), so at this call site the embedding agrees with the unbounded source
loop. -/
def metalPass (g : List ℕ) (natoms : ℕ → ℕ) : Option (ℕ → ℕ) :=
  (metalLoopF g (groupSum g natoms).toNat natoms (groupSum g natoms)).map (·.1)

/-- One round of the initial addition loop: pick a random valid element and
add `np.random.randint(0, 3)` atoms of it. -/
def addStep (cfg : GenerateConfig) (s : RandSrc) (natoms : ℕ → ℕ) (k : ℕ) :
    Option (ℕ → ℕ) :=
  (choose (validElems cfg) (s.addChoice k)).map
    (fun ati => Function.update natoms ati (natoms ati + s.addCount k % 3))

/-- The `for _ in range(numatoms_all)` loop of the addition rounds. -/
def addRounds (cfg : GenerateConfig) (s : RandSrc) : List ℕ → (ℕ → ℕ) → Option (ℕ → ℕ)
  | [], natoms => some natoms
  | k :: ks, natoms => (addStep cfg s natoms k).bind (addRounds cfg s ks)

/-- State after `natoms = np.zeros(102)` and the addition rounds
(`numatoms_all = np.random.randint(1, 7)` rounds). -/
def stage_add (cfg : GenerateConfig) (s : RandSrc) : Option (ℕ → ℕ) :=
  addRounds cfg s (List.range (1 + s.nrounds % 6)) (fun _ => 0)

/-- State after the two metal-abundance-limiting passes. -/
def stage_metal (cfg : GenerateConfig) (s : RandSrc) : Option (ℕ → ℕ) :=
  (stage_add cfg s).bind fun n =>
    (metalPass group_one_two n).bind fun n1 =>
      metalPass other_metals n1

/-- One round of the p-block boost: `i = np.random.randint(4, 10)`;
`natoms[i] += np.random.randint(0, 3)`. -/
def pblockStep (s : RandSrc) (natoms : ℕ → ℕ) (k : ℕ) : ℕ → ℕ :=
  Function.update natoms (4 + s.pbElem k % 6)
    (natoms (4 + s.pbElem k % 6) + s.pbCount k % 3)

/-- The `for _ in range(5)` p-block loop. -/
def pbRounds (s : RandSrc) : List ℕ → (ℕ → ℕ) → (ℕ → ℕ)
  | [], natoms => natoms
  | k :: ks, natoms => pbRounds s ks (pblockStep s natoms k)

/-- State after the p-block boost. -/
def stage_pblock (cfg : GenerateConfig) (s : RandSrc) : Option (ℕ → ℕ) :=
  (stage_metal cfg s).map (pbRounds s (List.range 5))

/-- Hydrogen backfill: if `natoms[0] == 0`, add
`1 + int(np.random.rand() * min(np.sum(natoms), 10) * 1.2)` hydrogens.
Python `int()` truncates toward zero; on the realizable draws of
`np.random.rand()` (nonnegative) this is `Int.toNat ∘ Rat.floor`. -/
def backfill (hd : ℚ) (natoms : ℕ → ℕ) : ℕ → ℕ :=
  if natoms 0 = 0 then
    Function.update natoms 0
      (natoms 0 + (1 + (⌊hd * (min (total natoms) 10 : ℕ) * (6 / 5)⌋).toNat))
  else natoms

/-- State after the hydrogen backfill. -/
def stage_backfill (cfg : GenerateConfig) (s : RandSrc) : Option (ℕ → ℕ) :=
  (stage_pblock cfg s).map (backfill s.hdraw)

/-- `cfg.element_composition.get(i, (None, None))`. -/
def compGet (comp : List (ℕ × (Option ℕ × Option ℕ))) (i : ℕ) :
    Option ℕ × Option ℕ :=
  (comp.lookup i).getD (none, none)

/-- One dict entry of the composition-alignment loop: clamp up to the
minimum if below it, else clamp down to the maximum if above it. -/
def clampStep (natoms : ℕ → ℕ) (p : ℕ × (Option ℕ × Option ℕ)) : ℕ → ℕ :=
  match p.2.1 with
  | some m =>
    if natoms p.1 < m then Function.update natoms p.1 m
    else
      match p.2.2 with
      | some mx => if mx < natoms p.1 then Function.update natoms p.1 mx else natoms
      | none => natoms
  | none =>
    match p.2.2 with
    | some mx => if mx < natoms p.1 then Function.update natoms p.1 mx else natoms
    | none => natoms

/-- The `for elem, count_range in cfg.element_composition.items()` loop. -/
def applyComposition (comp : List (ℕ × (Option ℕ × Option ℕ))) (natoms : ℕ → ℕ) :
    ℕ → ℕ :=
  comp.foldl clampStep natoms

/-- State after aligning with `cfg.element_composition`. -/
def stage_clamp (cfg : GenerateConfig) (s : RandSrc) : Option (ℕ → ℕ) :=
  (stage_backfill cfg s).map (applyComposition cfg.element_composition)

/-- The `while np.sum(natoms) < cfg.min_num_atoms` grow loop; `k` indexes the
choice stream, fuel bounds the number of iterations. -/
def growLoop (cfg : GenerateConfig) (gc : ℕ → ℕ) (k : ℕ) (natoms : ℕ → ℕ)
    (fuel : ℕ) : Option (ℕ → ℕ) :=
  if total natoms < cfg.min_num_atoms then
    match fuel with
    | 0 => none
    | f + 1 =>
      match choose (validElems cfg) (gc k) with
      | none => none
      | some ati =>
        match (compGet cfg.element_composition ati).2 with
        | some mx =>
          if mx ≤ natoms ati then growLoop cfg gc (k + 1) natoms f
          else growLoop cfg gc (k + 1) (Function.update natoms ati (natoms ati + 1)) f
        | none => growLoop cfg gc (k + 1) (Function.update natoms ati (natoms ati + 1)) f
  else some natoms

/-- The `while np.sum(natoms) > cfg.max_num_atoms` shrink loop:
`i = np.random.randint(0, MAX_ELEM)`; the count is decremented only when it
is nonzero, a minimum is configured for `i`, and the count exceeds that
minimum — exactly the source's condition
`min_limit is not None and natoms[i] > min_limit`. -/
def shrinkLoop (cfg : GenerateConfig) (sd : ℕ → ℕ) (k : ℕ) (natoms : ℕ → ℕ)
    (fuel : ℕ) : Option (ℕ → ℕ) :=
  if cfg.max_num_atoms < total natoms then
    match fuel with
    | 0 => none
    | f + 1 =>
      let i := sd k % MAX_ELEM
      if 0 < natoms i then
        match (compGet cfg.element_composition i).1 with
        | some m =>
          if m < natoms i then
            shrinkLoop cfg sd (k + 1) (Function.update natoms i (natoms i - 1)) f
          else shrinkLoop cfg sd (k + 1) natoms f
        | none => shrinkLoop cfg sd (k + 1) natoms f
      else shrinkLoop cfg sd (k + 1) natoms f
  else some natoms

/-- `generate_atom_list`: the full composition sampler. -/
def generate_atom_list (cfg : GenerateConfig) (s : RandSrc) (fuel : ℕ) :
    Option (ℕ → ℕ) :=
  (stage_clamp cfg s).bind fun n =>
    (growLoop cfg s.growChoice 0 n fuel).bind fun n' =>
      shrinkLoop cfg s.shrinkDraw 0 n' fuel

/-- Sum of all configured per-element minimums of a composition map. -/
def minSum (comp : List (ℕ × (Option ℕ × Option ℕ))) : ℕ :=
  (comp.map fun p => (p.2.1).getD 0).sum

/-- A 3D point with rational coordinates. -/
abbrev Pt : Type := ℚ × ℚ × ℚ

/-- One atom's raw coordinates: hydrogen (element index 0) draws each axis
as `rand * 3 - 1.5`, every other element as `rand * 2 - 1`. -/
def rawCoord (elem : ℕ) (u1 u2 u3 : ℚ) : Pt :=
  if elem = 0 then (u1 * 3 - 3 / 2, u2 * 3 - 3 / 2, u3 * 3 - 3 / 2)
  else (u1 * 2 - 1, u2 * 2 - 1, u3 * 2 - 1)

/-- The aligned element-index sequence built by `generate_random_coordinates`:
`elem` repeated `count` times, in increasing element-index order, starting at
element index `e`. -/
def expandFrom (e : ℕ) : List ℕ → List ℕ
  | [] => []
  | c :: rest => List.replicate c e ++ expandFrom (e + 1) rest

/-- Element-index sequence for a whole composition list. -/
def expandAti (atl : List ℕ) : List ℕ := expandFrom 0 atl

/-- Raw coordinate rows of `generate_random_coordinates`, elements from `e`
upward, atoms already placed (`numatoms` in the source) given by `pos`; atom
number `pos + m` consumes draws `g (3*(pos+m))`, `g (3*(pos+m)+1)`,
`g (3*(pos+m)+2)`. -/
def rawFrom (g : ℕ → ℚ) (e pos : ℕ) : List ℕ → List Pt
  | [] => []
  | c :: rest =>
    (List.range c).map
      (fun m => rawCoord e (g (3 * (pos + m))) (g (3 * (pos + m) + 1))
        (g (3 * (pos + m) + 2))) ++ rawFrom g (e + 1) (pos + c) rest

/-- `generate_random_coordinates`: raw coordinates and the aligned
element-index sequence for a composition list. -/
def generate_random_coordinates (atl : List ℕ) (g : ℕ → ℚ) :
    List Pt × List ℕ :=
  (rawFrom g 0 0 atl, expandAti atl)

/-- `xyz * eff_scaling`: componentwise scaling of all rows. -/
def scaleList (c : ℚ) (l : List Pt) : List Pt :=
  l.map fun p => (c * p.1, c * p.2.1, c * p.2.2)

/-- Squared Euclidean distance between two rows. -/
def distSq (p q : Pt) : ℚ :=
  (p.1 - q.1) ^ 2 + (p.2.1 - q.2.1) ^ 2 + (p.2.2 - q.2.2) ^ 2

/-- Embedding of the comparison `np.linalg.norm(d) < threshold` via the
squared distance: for `s ≥ 0`, `sqrt s < t ↔ 0 < t ∧ s < t²` (proved below
as `sqrtLtB_iff`), which keeps the check executable over `ℚ`. -/
def sqrtLtB (s t : ℚ) : Bool :=
  decide (0 < t) && decide (s < t * t)

/-- `check_distances`: all unordered pairs of rows must be at distance at
least `threshold`; `false` as soon as one pair is closer. -/
def check_distances : List Pt → ℚ → Bool
  | [], _ => true
  | p :: rest, t =>
    (rest.all fun q => ! sqrtLtB (distSq p q) t) && check_distances rest t

/-- The `while not check_distances(xyz, dist_threshold)` rejection loop of
`generate_coordinates`: on failure redraw all raw coordinates with the next
iteration's stream, grow the effective scaling by `inc`, rescale, recheck.
Fuel bounds the number of rejection iterations. -/
def coordLoop (atl : List ℕ) (threshold inc : ℚ) (G : ℕ → ℕ → ℚ) (eff : ℚ)
    (xyz : List Pt) (k fuel : ℕ) : Option (List Pt × List ℕ) :=
  if check_distances xyz threshold then some (xyz, expandAti atl)
  else
    match fuel with
    | 0 => none
    | f + 1 =>
      coordLoop atl threshold inc G (eff * inc)
        (scaleList (eff * inc) (rawFrom (G k) 0 0 atl)) (k + 1) f

/-- `generate_coordinates`: the full geometry sampler.  `G n` is the draw
stream of rejection iteration `n` (iteration 0 is the initial draw). -/
def generate_coordinates (atl : List ℕ) (scaling threshold inc : ℚ)
    (G : ℕ → ℕ → ℚ) (fuel : ℕ) : Option (List Pt × List ℕ) :=
  coordLoop atl threshold inc G scaling
    (scaleList scaling (rawFrom (G 0) 0 0 atl)) 1 fuel

/-- The composition list handed from the composition sampler to the geometry
sampler (`mol.atlist`, a 102-slot array). -/
def comp102 (natoms : ℕ → ℕ) : List ℕ :=
  (List.range 102).map natoms

/-- Composition sampling followed by geometry sampling, as performed by
`generate_random_molecule` (charge assignment and naming are external
collaborators outside the core). -/
def generateMolecule (cfg : GenerateConfig) (s : RandSrc) (G : ℕ → ℕ → ℚ)
    (fuel : ℕ) : Option ((ℕ → ℕ) × (List Pt × List ℕ)) :=
  (generate_atom_list cfg s fuel).bind fun v =>
    (generate_coordinates (comp102 v) cfg.init_coord_scaling cfg.dist_threshold
      cfg.increase_scaling_factor G fuel).map fun p => (v, p)

/-- A draw source with all streams zero. -/
def srcZero : RandSrc :=
  ⟨0, fun _ => 0, fun _ => 0, fun _ => 0, fun _ => 0, 0, fun _ => 0, fun _ => 0⟩

/-- A zero stream for the geometry sampler. -/
def gZero : ℕ → ℕ → ℚ := fun _ _ => 0

/-- Configuration with element index 8 forbidden and no composition
constraints. -/
def cfgForbidden8 : GenerateConfig := ⟨1, 20, [8], [], 3, 1, 13 / 10⟩

/-- Draw source whose p-block rounds all hit element index 8
(`4 + 4 % 6 = 8`) and add one atom each. -/
def srcPBlock8 : RandSrc :=
  ⟨0, fun _ => 0, fun _ => 1, fun _ => 4, fun _ => 1, 0, fun _ => 0, fun _ => 0⟩

/-- Configuration with `min_num_atoms = 1`, `max_num_atoms = 2` and no
composition constraints, so the sum of configured minimums is 0 ≤ 2. -/
def cfgSmallMax : GenerateConfig := ⟨1, 2, [], [], 3, 1, 13 / 10⟩

/-- Draw source producing 2 hydrogens in the addition round and 2 atoms of
element 4 in each p-block round: 12 atoms in total when the shrink loop is
reached. -/
def srcTwelve : RandSrc :=
  ⟨0, fun _ => 0, fun _ => 2, fun _ => 0, fun _ => 2, 0, fun _ => 0, fun _ => 0⟩

/-- Configuration whose composition map forces at least 5 hydrogens while
`max_num_atoms = 2`: the sum of configured minimums exceeds the maximum. -/
def cfgMinHigh : GenerateConfig := ⟨1, 2, [], [(0, (some 5, none))], 3, 1, 13 / 10⟩

/-- A shrink-loop entry state with 3 atoms of element 4 and nothing else. -/
def natomsThree : ℕ → ℕ := Function.update (fun _ => 0) 4 3

/-- A configuration used to exercise the metal pass and geometry stages. -/
def cfgPlain : GenerateConfig := ⟨1, 20, [], [], 3, 0, 13 / 10⟩

/-- Draw source adding exactly one hydrogen in its single addition round
(so the backfill branch is not taken). -/
def srcOneH : RandSrc :=
  ⟨0, fun _ => 0, fun _ => 1, fun _ => 0, fun _ => 0, 0, fun _ => 0, fun _ => 0⟩

/-! ### Geometry sampler lemmas -/

theorem sqrtLtB_eq_true_iff (s t : ℚ) (hs : 0 ≤ s) :
    sqrtLtB s t = true ↔ Real.sqrt (s : ℝ) < (t : ℝ) := by
  simp only [sqrtLtB, Bool.and_eq_true, decide_eq_true_eq]
  constructor
  · rintro ⟨ht, hlt⟩
    have h1 : Real.sqrt (s : ℝ) < Real.sqrt ((t : ℝ) * t) := by
      apply Real.sqrt_lt_sqrt (by exact_mod_cast hs)
      exact_mod_cast hlt
    rwa [Real.sqrt_mul_self (by exact_mod_cast ht.le)] at h1
  · intro h
    have h0 : (0 : ℝ) ≤ Real.sqrt (s : ℝ) := Real.sqrt_nonneg _
    have ht : (0 : ℝ) < (t : ℝ) := lt_of_le_of_lt h0 h
    refine ⟨by exact_mod_cast ht, ?_⟩
    have hsq : ((s : ℝ)) < (t : ℝ) * t := by
      have := mul_self_lt_mul_self h0 h
      rwa [Real.mul_self_sqrt (by exact_mod_cast hs)] at this
    exact_mod_cast hsq

theorem le_sqrt_of_sqrtLtB_eq_false (s t : ℚ) (h : sqrtLtB s t = false) :
    (t : ℝ) ≤ Real.sqrt (s : ℝ) := by
  simp only [sqrtLtB, Bool.and_eq_false_iff, decide_eq_false_iff_not, not_lt] at h
  rcases h with h | h
  · exact le_trans (by exact_mod_cast h) (Real.sqrt_nonneg _)
  · have h1 : Real.sqrt ((t : ℝ) * t) ≤ Real.sqrt (s : ℝ) :=
      Real.sqrt_le_sqrt (by exact_mod_cast h)
    calc (t : ℝ) ≤ |(t : ℝ)| := le_abs_self _
    _ = Real.sqrt ((t : ℝ) * t) := (Real.sqrt_mul_self_eq_abs _).symm
    _ ≤ Real.sqrt (s : ℝ) := h1

theorem distSq_nonneg (p q : Pt) : 0 ≤ distSq p q := by
  unfold distSq; positivity

theorem distSq_comm (p q : Pt) : distSq p q = distSq q p := by
  unfold distSq; ring

theorem check_distances_eq_true_iff (l : List Pt) (t : ℚ) :
    check_distances l t = true ↔
      l.Pairwise (fun p q => sqrtLtB (distSq p q) t = false) := by
  induction l with
  | nil => simp [check_distances]
  | cons p rest ih =>
    simp only [check_distances, Bool.and_eq_true, List.all_eq_true,
      List.pairwise_cons, ih, Bool.not_eq_true']

theorem expandFrom_length (atl : List ℕ) : ∀ e, (expandFrom e atl).length = atl.sum := by
  induction atl with
  | nil => intro e; simp [expandFrom]
  | cons c rest ih => intro e; simp [expandFrom, ih]

theorem rawFrom_length (g : ℕ → ℚ) (atl : List ℕ) :
    ∀ e pos, (rawFrom g e pos atl).length = atl.sum := by
  induction atl with
  | nil => intro e pos; simp [rawFrom]
  | cons c rest ih => intro e pos; simp [rawFrom, ih]

theorem scaleList_length (c : ℚ) (l : List Pt) : (scaleList c l).length = l.length := by
  simp [scaleList]

theorem mem_expandFrom_le (atl : List ℕ) :
    ∀ e x, x ∈ expandFrom e atl → e ≤ x := by
  induction atl with
  | nil => intro e x hx; simp [expandFrom] at hx
  | cons c rest ih =>
    intro e x hx
    simp only [expandFrom, List.mem_append, List.mem_replicate] at hx
    rcases hx with h | h
    · omega
    · exact le_trans (by omega) (ih (e + 1) x h)

theorem expandFrom_pairwise (atl : List ℕ) :
    ∀ e, (expandFrom e atl).Pairwise (· ≤ ·) := by
  induction atl with
  | nil => intro e; simp [expandFrom]
  | cons c rest ih =>
    intro e
    simp only [expandFrom]
    rw [List.pairwise_append]
    refine ⟨List.pairwise_replicate.mpr (Or.inr le_rfl), ih (e + 1), ?_⟩
    intro x hx y hy
    have hx' := (List.mem_replicate.mp hx).2
    have hy' := mem_expandFrom_le rest (e + 1) y hy
    omega

theorem expandFrom_count (atl : List ℕ) :
    ∀ e j, (expandFrom e atl).count (e + j) = atl.getD j 0 := by
  induction atl with
  | nil => intro e j; simp [expandFrom]
  | cons c rest ih =>
    intro e j
    simp only [expandFrom, List.count_append]
    cases j with
    | zero =>
      have h1 : (List.replicate c e).count (e + 0) = c := by
        rw [Nat.add_zero, List.count_replicate]
        simp
      have h2 : (expandFrom (e + 1) rest).count (e + 0) = 0 := by
        rw [List.count_eq_zero]
        intro hmem
        have := mem_expandFrom_le rest (e + 1) (e + 0) hmem
        omega
      rw [h1, h2]
      simp
    | succ j' =>
      have h1 : (List.replicate c e).count (e + (j' + 1)) = 0 := by
        rw [List.count_eq_zero]
        intro hmem
        have := (List.mem_replicate.mp hmem).2
        omega
      have h2 : (expandFrom (e + 1) rest).count (e + (j' + 1)) = rest.getD j' 0 := by
        have := ih (e + 1) j'
        have harg : e + 1 + j' = e + (j' + 1) := by omega
        rwa [harg] at this
      rw [h1, h2]
      simp

theorem expandAti_count (atl : List ℕ) (x : ℕ) :
    (expandAti atl).count x = atl.getD x 0 := by
  have := expandFrom_count atl 0 x
  simpa [expandAti] using this

theorem coordLoop_some (atl : List ℕ) (threshold inc : ℚ) (G : ℕ → ℕ → ℚ) :
    ∀ fuel eff xyz k r, xyz.length = atl.sum →
      coordLoop atl threshold inc G eff xyz k fuel = some r →
      r.2 = expandAti atl ∧ check_distances r.1 threshold = true ∧
        r.1.length = atl.sum := by
  intro fuel
  induction fuel with
  | zero =>
    intro eff xyz k r hlen h
    rw [coordLoop] at h
    by_cases hc : check_distances xyz threshold = true
    · rw [if_pos hc] at h
      cases h
      exact ⟨rfl, hc, hlen⟩
    · rw [if_neg hc] at h
      cases h
  | succ f ih =>
    intro eff xyz k r hlen h
    rw [coordLoop] at h
    by_cases hc : check_distances xyz threshold = true
    · rw [if_pos hc] at h
      cases h
      exact ⟨rfl, hc, hlen⟩
    · rw [if_neg hc] at h
      exact ih (eff * inc) _ (k + 1) r
        (by rw [scaleList_length, rawFrom_length]) h

theorem check_distances_zero (l : List Pt) : check_distances l 0 = true := by
  induction l with
  | nil => rfl
  | cons p rest ih =>
    simp only [check_distances, Bool.and_eq_true, List.all_eq_true]
    exact ⟨fun q _ => by simp [sqrtLtB], ih⟩

theorem check_distances_short (l : List Pt) (t : ℚ) (h : l.length ≤ 1) :
    check_distances l t = true := by
  match l, h with
  | [], _ => rfl
  | [p], _ => simp [check_distances]

/-- C5: whenever the geometry sampler returns, the coordinate and
element-index sequences both have length equal to the total atom count of
the input composition list; the element-index sequence is non-decreasing
and lists each element index once per atom instance; and every unordered
pair of atoms is at Euclidean distance at least `dist_threshold`. -/
theorem C5_geometry_postconditions (atl : List ℕ) (scaling threshold inc : ℚ)
    (G : ℕ → ℕ → ℚ) (fuel : ℕ) (xyz : List Pt) (ati : List ℕ)
    (h : generate_coordinates atl scaling threshold inc G fuel = some (xyz, ati)) :
    xyz.length = atl.sum ∧ ati.length = atl.sum ∧
      ati.Pairwise (· ≤ ·) ∧ (∀ x, ati.count x = atl.getD x 0) ∧
      ∀ i j : Fin xyz.length, i ≠ j →
        (threshold : ℝ) ≤ Real.sqrt ((distSq (xyz.get i) (xyz.get j) : ℚ) : ℝ) := by
  have hres := coordLoop_some atl threshold inc G fuel scaling
    (scaleList scaling (rawFrom (G 0) 0 0 atl)) 1 (xyz, ati)
    (by rw [scaleList_length, rawFrom_length]) h
  obtain ⟨hati, hcheck, hlen⟩ := hres
  have hpair := (check_distances_eq_true_iff xyz threshold).mp hcheck
  subst hati
  refine ⟨hlen, by rw [expandAti, expandFrom_length], expandFrom_pairwise atl 0,
    expandAti_count atl, ?_⟩
  intro i j hij
  rcases lt_or_gt_of_ne (fun h' => hij (Fin.ext h')) with hlt | hgt
  · exact le_sqrt_of_sqrtLtB_eq_false _ _ (List.pairwise_iff_get.mp hpair i j hlt)
  · have := List.pairwise_iff_get.mp hpair j i hgt
    rw [distSq_comm]
    exact le_sqrt_of_sqrtLtB_eq_false _ _ this

/-- C5 witness: a concrete run of the geometry sampler that returns. -/
theorem C5_geometry_postconditions_witness :
    ∃ xyz ati, generate_coordinates [0, 2] 3 0 (13 / 10) gZero 1 = some (xyz, ati) ∧
      xyz.length = [0, 2].sum ∧ ati.Pairwise (· ≤ ·) := by
  have h : (generate_coordinates [0, 2] 3 0 (13 / 10) gZero 1).isSome = true := by decide
  obtain ⟨r, hr⟩ := Option.isSome_iff_exists.mp h
  obtain ⟨xyz, ati⟩ := r
  have hpost := C5_geometry_postconditions [0, 2] 3 0 (13 / 10) gZero 1 xyz ati hr
  exact ⟨xyz, ati, hr, hpost.1, hpost.2.2.1⟩

/-- C9: with `dist_threshold = 0` the distance check passes on the very
first draw, so the rescale-and-redraw branch is never executed and the
sampler returns the first drawn coordinates scaled by the initial scale
only, for every fuel bound (including 0 loop iterations). -/
theorem C9_zero_threshold_first_draw (atl : List ℕ) (scaling inc : ℚ)
    (G : ℕ → ℕ → ℚ) (fuel : ℕ) :
    generate_coordinates atl scaling 0 inc G fuel =
      some (scaleList scaling (rawFrom (G 0) 0 0 atl), expandAti atl) := by
  rw [generate_coordinates, coordLoop.eq_def, if_pos (check_distances_zero _)]

/-- C10: for a composition with total atom count 0 or 1, the pairwise
distance check is vacuously true for every threshold, so the sampler
returns the first draw with no rescaling. -/
theorem C10_small_composition_first_draw (atl : List ℕ) (h : atl.sum ≤ 1)
    (scaling threshold inc : ℚ) (G : ℕ → ℕ → ℚ) (fuel : ℕ) :
    generate_coordinates atl scaling threshold inc G fuel =
      some (scaleList scaling (rawFrom (G 0) 0 0 atl), expandAti atl) := by
  have hlen : (scaleList scaling (rawFrom (G 0) 0 0 atl)).length ≤ 1 := by
    rw [scaleList_length, rawFrom_length]; exact h
  rw [generate_coordinates, coordLoop.eq_def, if_pos (check_distances_short _ _ hlen)]

/-- C10 witness: a single-atom composition with a large threshold returns
on the first draw. -/
theorem C10_small_composition_first_draw_witness :
    [1].sum ≤ 1 ∧
      generate_coordinates [1] 3 100 (13 / 10) gZero 0 =
        some (scaleList 3 (rawFrom (gZero 0) 0 0 [1]), expandAti [1]) :=
  ⟨by decide, C10_small_composition_first_draw [1] (by decide) 3 100 (13 / 10) gZero 0⟩

/-! ### Metal-abundance-limiting pass lemmas -/

theorem groupSum_natCast (g : List ℕ) (natoms : ℕ → ℕ) :
    groupSum g natoms = ((g.map natoms).sum : ℤ) := by
  unfold groupSum
  induction g with
  | nil => rfl
  | cons i rest ih =>
    simp only [List.map_cons, List.sum_cons, ih]
    push_cast
    ring

theorem groupSum_congr (g : List ℕ) (n m : ℕ → ℕ) (h : ∀ j ∈ g, n j = m j) :
    groupSum g n = groupSum g m := by
  unfold groupSum
  congr 1
  exact List.map_congr_left fun j hj => by rw [h j hj]

theorem scanDec_off (g : List ℕ) :
    ∀ natoms nm j, j ∉ g → (scanDec g natoms nm).1 j = natoms j := by
  induction g with
  | nil => intro natoms nm j _; rfl
  | cons i rest ih =>
    intro natoms nm j hj
    have hji : j ≠ i := fun h => hj (h ▸ List.mem_cons_self i rest)
    have hjr : j ∉ rest := fun h => hj (List.mem_cons_of_mem i h)
    rw [scanDec]
    by_cases hb : 0 < natoms i
    · by_cases hnm : nm - 1 ≤ 3
      · simp only [if_pos hb, if_pos hnm]
        exact Function.update_noteq hji _ _
      · simp only [if_pos hb, if_neg hnm]
        rw [ih _ _ j hjr]
        exact Function.update_noteq hji _ _
    · by_cases hnm : nm ≤ 3
      · simp only [if_neg hb, if_pos hnm]
      · simp only [if_neg hb, if_neg hnm]
        exact ih _ _ j hjr

theorem scanDec_le (g : List ℕ) :
    ∀ natoms nm j, (scanDec g natoms nm).1 j ≤ natoms j := by
  induction g with
  | nil => intro natoms nm j; exact le_rfl
  | cons i rest ih =>
    intro natoms nm j
    rw [scanDec]
    by_cases hb : 0 < natoms i
    · have hupd : Function.update natoms i (natoms i - 1) j ≤ natoms j := by
        by_cases hji : j = i
        · subst hji; rw [Function.update_same]; omega
        · rw [Function.update_noteq hji]
      by_cases hnm : nm - 1 ≤ 3
      · simp only [if_pos hb, if_pos hnm]
        exact hupd
      · simp only [if_pos hb, if_neg hnm]
        exact le_trans (ih _ _ j) hupd
    · by_cases hnm : nm ≤ 3
      · simp [if_neg hb, if_pos hnm]
      · simp only [if_neg hb, if_neg hnm]
        exact ih _ _ j

theorem scanDec_nm_le (g : List ℕ) :
    ∀ natoms nm, (scanDec g natoms nm).2 ≤ nm := by
  induction g with
  | nil => intro natoms nm; exact le_rfl
  | cons i rest ih =>
    intro natoms nm
    rw [scanDec]
    by_cases hb : 0 < natoms i
    · by_cases hnm : nm - 1 ≤ 3
      · simp only [if_pos hb, if_pos hnm]; omega
      · simp only [if_pos hb, if_neg hnm]
        have := ih (Function.update natoms i (natoms i - 1)) (nm - 1)
        omega
    · by_cases hnm : nm ≤ 3
      · simp [if_neg hb, if_pos hnm]
      · simp only [if_neg hb, if_neg hnm]
        exact ih natoms nm

theorem scanDec_invariant (g : List ℕ) :
    ∀ natoms nm, g.Nodup →
      (scanDec g natoms nm).2 - nm =
        groupSum g (scanDec g natoms nm).1 - groupSum g natoms := by
  induction g with
  | nil => intro natoms nm _; simp [scanDec]
  | cons i rest ih =>
    intro natoms nm hnd
    have hir : i ∉ rest := (List.nodup_cons.mp hnd).1
    have hrest : rest.Nodup := (List.nodup_cons.mp hnd).2
    rw [scanDec]
    by_cases hb : 0 < natoms i
    · set natoms' := Function.update natoms i (natoms i - 1) with hn'
      have hrest_eq : groupSum rest natoms' = groupSum rest natoms := by
        refine groupSum_congr _ _ _ fun j hj => ?_
        rw [hn']
        exact Function.update_noteq (fun h => hir (by rw [h] at hj; exact hj)) _ _
      have hni : (natoms' i : ℤ) = (natoms i : ℤ) - 1 := by
        rw [hn', Function.update_same]
        omega
      have hgs2 : groupSum (i :: rest) natoms = (natoms i : ℤ) + groupSum rest natoms := by
        simp only [groupSum, List.map_cons, List.sum_cons]
      by_cases hnm : nm - 1 ≤ 3
      · simp only [if_pos hb, if_pos hnm]
        have hgs1 : groupSum (i :: rest) natoms' =
            (natoms' i : ℤ) + groupSum rest natoms' := by
          simp only [groupSum, List.map_cons, List.sum_cons]
        rw [hgs1, hgs2, hni, hrest_eq]
        ring
      · simp only [if_pos hb, if_neg hnm]
        have hih := ih natoms' (nm - 1) hrest
        have hoff : (scanDec rest natoms' (nm - 1)).1 i = natoms' i :=
          scanDec_off rest natoms' (nm - 1) i hir
        have hgs : groupSum (i :: rest) (scanDec rest natoms' (nm - 1)).1 =
            (natoms' i : ℤ) + groupSum rest (scanDec rest natoms' (nm - 1)).1 := by
          simp only [groupSum, List.map_cons, List.sum_cons, hoff]
        rw [hgs, hgs2, hni]
        omega
    · by_cases hnm : nm ≤ 3
      · simp [if_neg hb, if_pos hnm]
      · simp only [if_neg hb, if_neg hnm]
        have hih := ih natoms nm hrest
        have hoff : (scanDec rest natoms nm).1 i = natoms i :=
          scanDec_off rest natoms nm i hir
        have hgs : groupSum (i :: rest) (scanDec rest natoms nm).1 =
            (natoms i : ℤ) + groupSum rest (scanDec rest natoms nm).1 := by
          simp only [groupSum, List.map_cons, List.sum_cons, hoff]
        have hgs' : groupSum (i :: rest) natoms =
            (natoms i : ℤ) + groupSum rest natoms := by
          simp only [groupSum, List.map_cons, List.sum_cons]
        rw [hgs, hgs']
        omega

theorem scanDec_progress (g : List ℕ) :
    ∀ natoms nm, g.Nodup → nm = groupSum g natoms → 3 < nm →
      (scanDec g natoms nm).2 < nm := by
  induction g with
  | nil =>
    intro natoms nm _ hsum hlt
    simp [groupSum] at hsum
    omega
  | cons i rest ih =>
    intro natoms nm hnd hsum hlt
    have hir : i ∉ rest := (List.nodup_cons.mp hnd).1
    have hrest : rest.Nodup := (List.nodup_cons.mp hnd).2
    rw [scanDec]
    by_cases hb : 0 < natoms i
    · by_cases hnm : nm - 1 ≤ 3
      · simp only [if_pos hb, if_pos hnm]; omega
      · simp only [if_pos hb, if_neg hnm]
        have := scanDec_nm_le rest (Function.update natoms i (natoms i - 1)) (nm - 1)
        omega
    · have hzero : natoms i = 0 := by omega
      have hsum' : nm = groupSum rest natoms := by
        rw [hsum]
        simp only [groupSum, List.map_cons, List.sum_cons, hzero]
        push_cast
        ring
      by_cases hnm : nm ≤ 3
      · omega
      · simp only [if_neg hb, if_neg hnm]
        exact ih natoms nm hrest hsum' hlt

theorem metalLoopF_some (g : List ℕ) (hnd : g.Nodup) :
    ∀ fuel natoms nm, nm = groupSum g natoms → nm.toNat - 3 ≤ fuel →
      ∃ n', metalLoopF g fuel natoms nm = some (n', groupSum g n') ∧
        groupSum g n' ≤ 3 ∧ (∀ j, n' j ≤ natoms j) ∧
        (∀ j, j ∉ g → n' j = natoms j) := by
  intro fuel
  induction fuel with
  | zero =>
    intro natoms nm hsum hfuel
    have hle : nm ≤ 3 := by omega
    rw [metalLoopF, if_neg (by omega)]
    exact ⟨natoms, by rw [hsum], hsum ▸ hle, fun j => le_rfl, fun j _ => rfl⟩
  | succ f ih =>
    intro natoms nm hsum hfuel
    by_cases hlt : 3 < nm
    · rw [metalLoopF, if_pos hlt]
      have hinv := scanDec_invariant g natoms nm hnd
      have hprog := scanDec_progress g natoms nm hnd hsum hlt
      have hsum2 : (scanDec g natoms nm).2 = groupSum g (scanDec g natoms nm).1 := by
        rw [hsum] at hinv ⊢
        omega
      have hfuel2 : (scanDec g natoms nm).2.toNat - 3 ≤ f := by omega
      obtain ⟨n', heq, hle3, hptle, hoff⟩ := ih (scanDec g natoms nm).1 _ hsum2 hfuel2
      refine ⟨n', heq, hle3, ?_, ?_⟩
      · exact fun j => le_trans (hptle j) (scanDec_le g natoms nm j)
      · intro j hj
        rw [hoff j hj]
        exact scanDec_off g natoms nm j hj
    · rw [metalLoopF, if_neg hlt]
      exact ⟨natoms, by rw [hsum], hsum ▸ (by omega), fun j => le_rfl, fun j _ => rfl⟩

theorem metalPass_some (g : List ℕ) (hnd : g.Nodup) (natoms : ℕ → ℕ) :
    ∃ n', metalPass g natoms = some n' ∧ groupSum g n' ≤ 3 ∧
      (∀ j, n' j ≤ natoms j) ∧ (∀ j, j ∉ g → n' j = natoms j) := by
  obtain ⟨n', heq, hle3, hptle, hoff⟩ :=
    metalLoopF_some g hnd (groupSum g natoms).toNat natoms (groupSum g natoms) rfl
      (by omega)
  exact ⟨n', by rw [metalPass, heq, Option.map_some'], hle3, hptle, hoff⟩

theorem group_one_two_nodup : group_one_two.Nodup := by decide

theorem other_metals_nodup : other_metals.Nodup := by decide

theorem group_disjoint : ∀ j ∈ group_one_two, j ∉ other_metals := by decide

/-- C6: immediately after the two metal-abundance-limiting passes (before
the p-block boost, hydrogen backfill and composition clamps), the count sum
over the alkali plus alkaline-earth indices and the count sum over the
3d/4d/5d/lanthanide indices are each at most 3. -/
theorem C6_metal_sums_le_three (cfg : GenerateConfig) (s : RandSrc) (n : ℕ → ℕ)
    (h : stage_metal cfg s = some n) :
    (group_one_two.map n).sum ≤ 3 ∧ (other_metals.map n).sum ≤ 3 := by
  rw [stage_metal] at h
  rcases Option.bind_eq_some.mp h with ⟨n0, hn0, h1⟩
  rcases Option.bind_eq_some.mp h1 with ⟨n1, hn1, h2⟩
  obtain ⟨n1', hn1', h12, _, _⟩ := metalPass_some group_one_two group_one_two_nodup n0
  rw [hn1] at hn1'
  injection hn1' with hn1eq
  subst hn1eq
  obtain ⟨n2', hn2', hother, _, hoff2⟩ := metalPass_some other_metals other_metals_nodup n1
  rw [h2] at hn2'
  injection hn2' with hn2eq
  subst hn2eq
  have hpres : groupSum group_one_two n = groupSum group_one_two n1 :=
    groupSum_congr _ _ _ fun j hj => hoff2 j (group_disjoint j hj)
  constructor
  · have : groupSum group_one_two n ≤ 3 := hpres ▸ h12
    rw [groupSum_natCast] at this
    exact_mod_cast this
  · have : groupSum other_metals n ≤ 3 := hother
    rw [groupSum_natCast] at this
    exact_mod_cast this

/-- C6 witness: a concrete run reaching the post-metal-pass state. -/
theorem C6_metal_sums_le_three_witness :
    ∃ n, stage_metal cfgPlain srcZero = some n ∧
      (group_one_two.map n).sum ≤ 3 ∧ (other_metals.map n).sum ≤ 3 := by
  have h : (stage_metal cfgPlain srcZero).isSome = true := by decide
  obtain ⟨n, hn⟩ := Option.isSome_iff_exists.mp h
  exact ⟨n, hn, C6_metal_sums_le_three cfgPlain srcZero n hn⟩

/-! ### Hydrogen backfill -/

/-- C7: at the hydrogen-backfill step, if hydrogen's count is 0 then with
`nat` the current total and `minnat = min nat 10`, exactly
`1 + ⌊u * minnat * 1.2⌋` hydrogens are added (`u` the rand draw, nonnegative
by the contract of `np.random.rand`), so the hydrogen count is at least 1
afterwards; if hydrogen's count is nonzero the step changes nothing. -/
theorem C7_hydrogen_backfill (cfg : GenerateConfig) (s : RandSrc) (n : ℕ → ℕ)
    (h : stage_pblock cfg s = some n) (hu : 0 ≤ s.hdraw) :
    (n 0 = 0 →
      stage_backfill cfg s = some (backfill s.hdraw n) ∧
      ((backfill s.hdraw n 0 : ℤ) =
        1 + ⌊s.hdraw * ((min (total n) 10 : ℕ) : ℚ) * (6 / 5)⌋) ∧
      1 ≤ backfill s.hdraw n 0) ∧
    (n 0 ≠ 0 → stage_backfill cfg s = some n) := by
  have hsb : stage_backfill cfg s = some (backfill s.hdraw n) := by
    rw [stage_backfill, h, Option.map_some']
  constructor
  · intro h0
    have hfl : 0 ≤ ⌊s.hdraw * ((min (total n) 10 : ℕ) : ℚ) * (6 / 5)⌋ := by
      apply Int.floor_nonneg.mpr
      have h1 : (0 : ℚ) ≤ s.hdraw * ((min (total n) 10 : ℕ) : ℚ) :=
        mul_nonneg hu (Nat.cast_nonneg _)
      exact mul_nonneg h1 (by norm_num)
    have hval : backfill s.hdraw n 0 =
        n 0 + (1 + (⌊s.hdraw * ((min (total n) 10 : ℕ) : ℚ) * (6 / 5)⌋).toNat) := by
      rw [backfill, if_pos h0, Function.update_same]
    refine ⟨hsb, ?_, ?_⟩
    · rw [hval, h0]
      omega
    · rw [hval]
      omega
  · intro h0
    rw [hsb, backfill, if_neg h0]

/-- C7 witness: a concrete run reaching the backfill step with a hydrogen
count of 0. -/
theorem C7_hydrogen_backfill_witness :
    ∃ n, stage_pblock cfgPlain srcZero = some n ∧ (0 : ℚ) ≤ srcZero.hdraw ∧
      (n 0 = 0 → 1 ≤ backfill srcZero.hdraw n 0) := by
  have h : (stage_pblock cfgPlain srcZero).isSome = true := by decide
  obtain ⟨n, hn⟩ := Option.isSome_iff_exists.mp h
  have hu : (0 : ℚ) ≤ srcZero.hdraw := by decide
  have hmain := C7_hydrogen_backfill cfgPlain srcZero n hn hu
  exact ⟨n, hn, hu, fun h0 => (hmain.1 h0).2.2⟩

/-! ### Forbidden elements: stage-by-stage tracking -/

theorem choose_mem (l : List ℕ) (k : ℕ) (a : ℕ) (h : choose l k = some a) : a ∈ l :=
  List.get?_mem h

theorem not_mem_validElems (cfg : GenerateConfig) (j : ℕ)
    (h : j ∈ cfg.forbidden_elements) : j ∉ validElems cfg := by
  intro hmem
  rw [validElems, List.mem_filter] at hmem
  have h2 := hmem.2
  rw [Bool.not_eq_true'] at h2
  have h3 : cfg.forbidden_elements.contains j = true := List.elem_iff.mpr h
  exact Bool.noConfusion (h3.symm.trans h2)

theorem addRounds_off (cfg : GenerateConfig) (s : RandSrc) (j : ℕ)
    (hj : j ∉ validElems cfg) :
    ∀ ks n n', addRounds cfg s ks n = some n' → n' j = n j := by
  intro ks
  induction ks with
  | nil =>
    intro n n' h
    rw [addRounds] at h
    cases h
    rfl
  | cons k rest ih =>
    intro n n' h
    rw [addRounds] at h
    rcases Option.bind_eq_some.mp h with ⟨nmid, hstep, hrest⟩
    rw [addStep] at hstep
    rcases Option.map_eq_some'.mp hstep with ⟨ati, hch, hupd⟩
    have hati : ati ∈ validElems cfg := choose_mem _ _ _ hch
    have hne : j ≠ ati := fun h' => hj (h' ▸ hati)
    rw [ih nmid n' hrest, ← hupd, Function.update_noteq hne]

theorem pbRounds_off (s : RandSrc) (j : ℕ) (hj : j < 4 ∨ 9 < j) :
    ∀ ks n, pbRounds s ks n j = n j := by
  intro ks
  induction ks with
  | nil => intro n; rfl
  | cons k rest ih =>
    intro n
    rw [pbRounds, ih, pblockStep]
    have hne : j ≠ 4 + s.pbElem k % 6 := by
      have : s.pbElem k % 6 < 6 := Nat.mod_lt _ (by omega)
      omega
    rw [Function.update_noteq hne]

theorem backfill_off (hd : ℚ) (n : ℕ → ℕ) (j : ℕ) (hj : j ≠ 0) :
    backfill hd n j = n j := by
  rw [backfill]
  by_cases h0 : n 0 = 0
  · rw [if_pos h0, Function.update_noteq hj]
  · rw [if_neg h0]

theorem applyComposition_zero (j : ℕ) :
    ∀ comp n, n j = 0 →
      (∀ p ∈ comp, p.1 = j → ∀ m, p.2.1 = some m → m = 0) →
      applyComposition comp n j = 0 := by
  intro comp
  induction comp with
  | nil => intro n h0 _; exact h0
  | cons p rest ih =>
    intro n h0 hmin
    obtain ⟨e, mn, mx⟩ := p
    rw [applyComposition, List.foldl_cons]
    have hupdz : ∀ v : ℕ, (e = j → v = 0) → Function.update n e v j = 0 := by
      intro v hv
      by_cases hej : e = j
      · subst hej
        rw [Function.update_same]
        exact hv rfl
      · rw [Function.update_noteq (fun hh => hej hh.symm)]
        exact h0
    have hstep : clampStep n (e, mn, mx) j = 0 := by
      rcases mn with _ | m
      · rcases mx with _ | M
        · exact h0
        · show (if M < n e then Function.update n e M else n) j = 0
          by_cases hlt : M < n e
          · rw [if_pos hlt]
            refine hupdz M fun hej => ?_
            subst hej
            omega
          · rw [if_neg hlt]
            exact h0
      · have hm0 : e = j → m = 0 := fun hej =>
          hmin (e, some m, mx) (List.mem_cons_self _ rest) hej m rfl
        rcases mx with _ | M
        · show (if n e < m then Function.update n e m else n) j = 0
          by_cases hlt : n e < m
          · rw [if_pos hlt]
            exact hupdz m hm0
          · rw [if_neg hlt]
            exact h0
        · show (if n e < m then Function.update n e m
              else if M < n e then Function.update n e M else n) j = 0
          by_cases hlt : n e < m
          · rw [if_pos hlt]
            exact hupdz m hm0
          · rw [if_neg hlt]
            by_cases hlt2 : M < n e
            · rw [if_pos hlt2]
              refine hupdz M fun hej => ?_
              subst hej
              omega
            · rw [if_neg hlt2]
              exact h0
    exact ih (clampStep n (e, mn, mx)) hstep
      (fun q hq hqj m hm => hmin q (List.mem_cons_of_mem _ hq) hqj m hm)

theorem growLoop_off (cfg : GenerateConfig) (gc : ℕ → ℕ) (j : ℕ)
    (hj : j ∉ validElems cfg) :
    ∀ fuel k n n', growLoop cfg gc k n fuel = some n' → n' j = n j := by
  intro fuel
  induction fuel with
  | zero =>
    intro k n n' h
    rw [growLoop] at h
    by_cases hc : total n < cfg.min_num_atoms
    · rw [if_pos hc] at h; cases h
    · rw [if_neg hc] at h; cases h; rfl
  | succ f ih =>
    intro k n n' h
    rw [growLoop] at h
    by_cases hc : total n < cfg.min_num_atoms
    · rw [if_pos hc] at h
      rcases hch : choose (validElems cfg) (gc k) with _ | ati
      · rw [hch] at h; cases h
      · rw [hch] at h
        have hati : ati ∈ validElems cfg := choose_mem _ _ _ hch
        have hne : j ≠ ati := fun h' => hj (h' ▸ hati)
        replace h : (match (compGet cfg.element_composition ati).2 with
            | some mx =>
              if mx ≤ n ati then growLoop cfg gc (k + 1) n f
              else growLoop cfg gc (k + 1) (Function.update n ati (n ati + 1)) f
            | none =>
              growLoop cfg gc (k + 1) (Function.update n ati (n ati + 1)) f) =
            some n' := h
        revert h
        rcases hmx : (compGet cfg.element_composition ati).2 with _ | mx
        · intro h
          replace h : growLoop cfg gc (k + 1) (Function.update n ati (n ati + 1)) f =
              some n' := h
          rw [ih _ _ _ h, Function.update_noteq hne]
        · intro h
          replace h : (if mx ≤ n ati then growLoop cfg gc (k + 1) n f
              else growLoop cfg gc (k + 1) (Function.update n ati (n ati + 1)) f) =
              some n' := h
          by_cases hge : mx ≤ n ati
          · rw [if_pos hge] at h
            exact ih _ _ _ h
          · rw [if_neg hge] at h
            rw [ih _ _ _ h, Function.update_noteq hne]
    · rw [if_neg hc] at h; cases h; rfl

theorem shrinkLoop_le (cfg : GenerateConfig) (sd : ℕ → ℕ) (j : ℕ) :
    ∀ fuel k n n', shrinkLoop cfg sd k n fuel = some n' → n' j ≤ n j := by
  intro fuel
  induction fuel with
  | zero =>
    intro k n n' h
    rw [shrinkLoop] at h
    by_cases hc : cfg.max_num_atoms < total n
    · rw [if_pos hc] at h; cases h
    · rw [if_neg hc] at h; cases h; exact le_rfl
  | succ f ih =>
    intro k n n' h
    rw [shrinkLoop] at h
    by_cases hc : cfg.max_num_atoms < total n
    · rw [if_pos hc] at h
      by_cases hpos : 0 < n (sd k % MAX_ELEM)
      · rw [if_pos hpos] at h
        replace h : (match (compGet cfg.element_composition (sd k % MAX_ELEM)).1 with
            | some m =>
              if m < n (sd k % MAX_ELEM) then
                shrinkLoop cfg sd (k + 1)
                  (Function.update n (sd k % MAX_ELEM) (n (sd k % MAX_ELEM) - 1)) f
              else shrinkLoop cfg sd (k + 1) n f
            | none => shrinkLoop cfg sd (k + 1) n f) = some n' := h
        revert h
        rcases hm : (compGet cfg.element_composition (sd k % MAX_ELEM)).1 with _ | m
        · intro h
          replace h : shrinkLoop cfg sd (k + 1) n f = some n' := h
          exact ih _ _ _ h
        · intro h
          replace h : (if m < n (sd k % MAX_ELEM) then
              shrinkLoop cfg sd (k + 1)
                (Function.update n (sd k % MAX_ELEM) (n (sd k % MAX_ELEM) - 1)) f
              else shrinkLoop cfg sd (k + 1) n f) = some n' := h
          by_cases hlt : m < n (sd k % MAX_ELEM)
          · rw [if_pos hlt] at h
            refine le_trans (ih _ _ _ h) ?_
            by_cases hji : j = sd k % MAX_ELEM
            · subst hji; rw [Function.update_same]; omega
            · rw [Function.update_noteq hji]
          · rw [if_neg hlt] at h
            exact ih _ _ _ h
      · rw [if_neg hpos] at h
        exact ih _ _ _ h
    · rw [if_neg hc] at h; cases h; exact le_rfl

theorem metalPass_le_of_eq (g : List ℕ) (hnd : g.Nodup) (n n' : ℕ → ℕ)
    (h : metalPass g n = some n') : ∀ j, n' j ≤ n j := by
  obtain ⟨m, hm, _, hle, _⟩ := metalPass_some g hnd n
  rw [h] at hm
  injection hm with hm
  subst hm
  exact hle

/-- C2 (amended): in every returned composition vector, every forbidden
element index outside the p-block boost range `[4, 9]` and different from
hydrogen (index 0) has count 0 unless the constraint map configures a
positive minimum for it.  (The original claim fails for indices 0 and 4–9:
the hydrogen backfill and the p-block boost add atoms regardless of
`forbidden_elements`; see the counterexample.) -/
theorem C2_forbidden_stays_zero (cfg : GenerateConfig) (s : RandSrc) (fuel : ℕ)
    (v : ℕ → ℕ) (j : ℕ) (h : generate_atom_list cfg s fuel = some v)
    (hforb : j ∈ cfg.forbidden_elements) (hpb : j < 4 ∨ 9 < j) (h0 : j ≠ 0)
    (hmin : ∀ p ∈ cfg.element_composition, p.1 = j → ∀ m, p.2.1 = some m → m = 0) :
    v j = 0 := by
  have hjv : j ∉ validElems cfg := not_mem_validElems cfg j hforb
  rw [generate_atom_list] at h
  rcases Option.bind_eq_some.mp h with ⟨nc, hnc, h1⟩
  rcases Option.bind_eq_some.mp h1 with ⟨ng, hng, hshrink⟩
  rw [stage_clamp] at hnc
  rcases Option.map_eq_some'.mp hnc with ⟨nb, hnb, hnc'⟩
  rw [stage_backfill] at hnb
  rcases Option.map_eq_some'.mp hnb with ⟨np, hnp, hnb'⟩
  rw [stage_pblock] at hnp
  rcases Option.map_eq_some'.mp hnp with ⟨nm, hnm, hnp'⟩
  rw [stage_metal] at hnm
  rcases Option.bind_eq_some.mp hnm with ⟨n0, hn0, h2⟩
  rcases Option.bind_eq_some.mp h2 with ⟨n1, hn1, hn2⟩
  have hz0 : n0 j = 0 := by
    rw [stage_add] at hn0
    rw [addRounds_off cfg s j hjv _ _ _ hn0]
  have hz1 : n1 j = 0 := by
    have := metalPass_le_of_eq group_one_two group_one_two_nodup n0 n1 hn1 j
    omega
  have hz2 : nm j = 0 := by
    have := metalPass_le_of_eq other_metals other_metals_nodup n1 nm hn2 j
    omega
  have hzp : np j = 0 := by
    rw [← hnp', pbRounds_off s j hpb, hz2]
  have hzb : nb j = 0 := by
    rw [← hnb', backfill_off s.hdraw np j h0, hzp]
  have hzc : nc j = 0 := by
    rw [← hnc']
    exact applyComposition_zero j cfg.element_composition nb hzb hmin
  have hzg : ng j = 0 := by
    rw [growLoop_off cfg s.growChoice j hjv fuel 0 nc ng hng, hzc]
  have := shrinkLoop_le cfg s.shrinkDraw j fuel 0 ng v hshrink
  omega

/-- C2 witness: a run with element 50 forbidden returning a vector. -/
theorem C2_forbidden_stays_zero_witness :
    ∃ v, generate_atom_list ⟨1, 20, [50], [], 3, 1, 13 / 10⟩ srcOneH 1 = some v ∧
      v 50 = 0 := by
  have h : (generate_atom_list ⟨1, 20, [50], [], 3, 1, 13 / 10⟩ srcOneH 1).isSome = true := by
    decide
  obtain ⟨v, hv⟩ := Option.isSome_iff_exists.mp h
  refine ⟨v, hv, ?_⟩
  exact C2_forbidden_stays_zero _ srcOneH 1 v 50 hv (by decide) (by decide) (by decide)
    (by intro p hp; cases hp)

/-- C2 counterexample: with element index 8 forbidden and no composition
constraints at all, the p-block boost still adds atoms of element 8, and
the returned composition vector has count 5 there — the claim as stated
(every forbidden index has count 0 unless forced by a minimum) is false. -/
theorem C2_counterexample :
    8 ∈ cfgForbidden8.forbidden_elements ∧
      cfgForbidden8.element_composition = [] ∧
      (generate_atom_list cfgForbidden8 srcPBlock8 1).elim 0 (fun v => v 8) = 5 := by
  refine ⟨by decide, rfl, by decide⟩

/-! ### Shrink-loop analysis -/

theorem lookup_mem (comp : List (ℕ × (Option ℕ × Option ℕ))) :
    ∀ i v, comp.lookup i = some v → (i, v) ∈ comp := by
  induction comp with
  | nil => intro i v h; cases h
  | cons q rest ih =>
    intro i v h
    rw [List.lookup] at h
    by_cases hq : q.1 = i
    · have hbeq : (i == q.1) = true := beq_iff_eq.mpr hq.symm
      rw [hbeq] at h
      replace h : some q.2 = some v := h
      injection h with h
      subst h
      subst hq
      exact List.mem_cons_self _ _
    · have hbeq : (i == q.1) = false := beq_eq_false_iff_ne.mpr (fun hh => hq hh.symm)
      rw [hbeq] at h
      replace h : List.lookup i rest = some v := h
      exact List.mem_cons_of_mem _ (ih i v h)

theorem lookup_eq_of_nodup (comp : List (ℕ × (Option ℕ × Option ℕ)))
    (hnd : (comp.map Prod.fst).Nodup) :
    ∀ p ∈ comp, comp.lookup p.1 = some p.2 := by
  induction comp with
  | nil => intro p hp; cases hp
  | cons q rest ih =>
    rw [List.map_cons, List.nodup_cons] at hnd
    intro p hp
    rcases List.mem_cons.mp hp with rfl | hp'
    · rw [List.lookup]
      have hbeq : (p.1 == p.1) = true := beq_iff_eq.mpr rfl
      rw [hbeq]
    · have hne : q.1 ≠ p.1 := fun h =>
        hnd.1 (h ▸ List.mem_map_of_mem Prod.fst hp')
      rw [List.lookup]
      have hbeq : (p.1 == q.1) = false := beq_eq_false_iff_ne.mpr (fun hh => hne hh.symm)
      rw [hbeq]
      exact ih hnd.2 p hp'

theorem clampStep_off (n : ℕ → ℕ) (q : ℕ × (Option ℕ × Option ℕ)) (j : ℕ)
    (h : q.1 ≠ j) : clampStep n q j = n j := by
  obtain ⟨e, mn, mx⟩ := q
  have hne : j ≠ e := fun hh => h hh.symm
  rcases mn with _ | m
  · rcases mx with _ | M
    · rfl
    · show (if M < n e then Function.update n e M else n) j = n j
      by_cases hlt : M < n e
      · rw [if_pos hlt, Function.update_noteq hne]
      · rw [if_neg hlt]
  · rcases mx with _ | M
    · show (if n e < m then Function.update n e m else n) j = n j
      by_cases hlt : n e < m
      · rw [if_pos hlt, Function.update_noteq hne]
      · rw [if_neg hlt]
    · show (if n e < m then Function.update n e m
          else if M < n e then Function.update n e M else n) j = n j
      by_cases hlt : n e < m
      · rw [if_pos hlt, Function.update_noteq hne]
      · rw [if_neg hlt]
        by_cases hlt2 : M < n e
        · rw [if_pos hlt2, Function.update_noteq hne]
        · rw [if_neg hlt2]

theorem clampStep_min (n : ℕ → ℕ) (q : ℕ × (Option ℕ × Option ℕ)) (m : ℕ)
    (hm : q.2.1 = some m) (hcons : ∀ mx, q.2.2 = some mx → m ≤ mx) :
    m ≤ clampStep n q q.1 := by
  obtain ⟨e, mn, mx⟩ := q
  simp only at hm hcons
  subst hm
  rcases mx with _ | M
  · show m ≤ (if n e < m then Function.update n e m else n) e
    by_cases hlt : n e < m
    · rw [if_pos hlt, Function.update_same]
    · rw [if_neg hlt]; omega
  · have hmM : m ≤ M := hcons M rfl
    show m ≤ (if n e < m then Function.update n e m
        else if M < n e then Function.update n e M else n) e
    by_cases hlt : n e < m
    · rw [if_pos hlt, Function.update_same]
    · rw [if_neg hlt]
      by_cases hlt2 : M < n e
      · rw [if_pos hlt2, Function.update_same]; omega
      · rw [if_neg hlt2]; omega

theorem applyComposition_off (j : ℕ) :
    ∀ comp n, j ∉ comp.map Prod.fst → applyComposition comp n j = n j := by
  intro comp
  induction comp with
  | nil => intro n _; rfl
  | cons q rest ih =>
    intro n hj
    rw [List.map_cons, List.mem_cons, not_or] at hj
    rw [applyComposition, List.foldl_cons]
    have h1 : clampStep n q j = n j := clampStep_off n q j (fun h => hj.1 h.symm)
    have h2 := ih (clampStep n q) hj.2
    rw [applyComposition] at h2
    rw [h2, h1]

theorem applyComposition_min (comp : List (ℕ × (Option ℕ × Option ℕ)))
    (hnd : (comp.map Prod.fst).Nodup)
    (hcons : ∀ p ∈ comp, ∀ m mx, p.2.1 = some m → p.2.2 = some mx → m ≤ mx) :
    ∀ n, ∀ p ∈ comp, ∀ m, p.2.1 = some m → m ≤ applyComposition comp n p.1 := by
  induction comp with
  | nil => intro n p hp; cases hp
  | cons q rest ih =>
    rw [List.map_cons, List.nodup_cons] at hnd
    intro n p hp m hm
    rcases List.mem_cons.mp hp with rfl | hp'
    · rw [applyComposition, List.foldl_cons]
      have hkey : p.1 ∉ rest.map Prod.fst := hnd.1
      have hoff : applyComposition rest (clampStep n p) p.1 = clampStep n p p.1 :=
        applyComposition_off p.1 rest (clampStep n p) hkey
      rw [applyComposition] at hoff
      rw [hoff]
      exact clampStep_min n p m hm
        (fun mx hmx => hcons p (List.mem_cons_self _ _) m mx hm hmx)
    · rw [applyComposition, List.foldl_cons]
      have := ih hnd.2
        (fun r hr m' mx' hm' hmx' => hcons r (List.mem_cons_of_mem _ hr) m' mx' hm' hmx')
        (clampStep n q) p hp' m hm
      rw [applyComposition] at this
      exact this

theorem growLoop_ge (cfg : GenerateConfig) (gc : ℕ → ℕ) :
    ∀ fuel k n n', growLoop cfg gc k n fuel = some n' → ∀ j, n j ≤ n' j := by
  intro fuel
  induction fuel with
  | zero =>
    intro k n n' h
    rw [growLoop] at h
    by_cases hc : total n < cfg.min_num_atoms
    · rw [if_pos hc] at h; cases h
    · rw [if_neg hc] at h; cases h; exact fun j => le_rfl
  | succ f ih =>
    intro k n n' h
    rw [growLoop] at h
    by_cases hc : total n < cfg.min_num_atoms
    · rw [if_pos hc] at h
      rcases hch : choose (validElems cfg) (gc k) with _ | ati
      · rw [hch] at h; cases h
      · rw [hch] at h
        replace h : (match (compGet cfg.element_composition ati).2 with
            | some mx =>
              if mx ≤ n ati then growLoop cfg gc (k + 1) n f
              else growLoop cfg gc (k + 1) (Function.update n ati (n ati + 1)) f
            | none =>
              growLoop cfg gc (k + 1) (Function.update n ati (n ati + 1)) f) =
            some n' := h
        have hstep : ∀ j, n j ≤ Function.update n ati (n ati + 1) j := by
          intro j
          by_cases hji : j = ati
          · subst hji; rw [Function.update_same]; omega
          · rw [Function.update_noteq hji]
        revert h
        rcases hmx : (compGet cfg.element_composition ati).2 with _ | mx
        · intro h
          replace h : growLoop cfg gc (k + 1) (Function.update n ati (n ati + 1)) f =
              some n' := h
          exact fun j => le_trans (hstep j) (ih _ _ _ h j)
        · intro h
          replace h : (if mx ≤ n ati then growLoop cfg gc (k + 1) n f
              else growLoop cfg gc (k + 1) (Function.update n ati (n ati + 1)) f) =
              some n' := h
          by_cases hge : mx ≤ n ati
          · rw [if_pos hge] at h
            exact ih _ _ _ h
          · rw [if_neg hge] at h
            exact fun j => le_trans (hstep j) (ih _ _ _ h j)
    · rw [if_neg hc] at h; cases h; exact fun j => le_rfl

theorem sum_map_le_total (l : List ℕ) (n : ℕ → ℕ) (hnd : l.Nodup)
    (h102 : ∀ i ∈ l, i < 102) : (l.map n).sum ≤ total n := by
  rw [← List.sum_toFinset n hnd]
  unfold total
  apply Finset.sum_le_sum_of_subset
  intro i hi
  rw [List.mem_toFinset] at hi
  rw [Finset.mem_range]
  exact h102 i hi

theorem minSum_le_total (comp : List (ℕ × (Option ℕ × Option ℕ)))
    (hnd : (comp.map Prod.fst).Nodup) (h102 : ∀ p ∈ comp, p.1 < 102) (n : ℕ → ℕ)
    (hinv : ∀ i m, (compGet comp i).1 = some m → m ≤ n i) :
    minSum comp ≤ total n := by
  have h1 : minSum comp ≤ (comp.map fun p => n p.1).sum := by
    rw [minSum]
    apply List.sum_le_sum
    intro p hp
    rcases hm : p.2.1 with _ | m
    · simp
    · simp only [Option.getD_some]
      apply hinv p.1 m
      rw [compGet, lookup_eq_of_nodup comp hnd p hp, Option.getD_some, hm]
  have h2 : (comp.map fun p => n p.1).sum ≤ total n := by
    have hmm : (comp.map fun p => n p.1) = (comp.map Prod.fst).map n := by
      rw [List.map_map]
      rfl
    rw [hmm]
    exact sum_map_le_total _ n hnd (fun i hi => by
      rcases List.mem_map.mp hi with ⟨p, hp, rfl⟩
      exact h102 p hp)
  omega

theorem shrinkLoop_none_of_inv (cfg : GenerateConfig) (sd : ℕ → ℕ)
    (hnd : (cfg.element_composition.map Prod.fst).Nodup)
    (h102 : ∀ p ∈ cfg.element_composition, p.1 < 102)
    (hmax : cfg.max_num_atoms < minSum cfg.element_composition) :
    ∀ fuel k n, (∀ i m, (compGet cfg.element_composition i).1 = some m → m ≤ n i) →
      shrinkLoop cfg sd k n fuel = none := by
  intro fuel
  induction fuel with
  | zero =>
    intro k n hinv
    have htot : cfg.max_num_atoms < total n :=
      lt_of_lt_of_le hmax (minSum_le_total _ hnd h102 n hinv)
    rw [shrinkLoop, if_pos htot]
  | succ f ih =>
    intro k n hinv
    have htot : cfg.max_num_atoms < total n :=
      lt_of_lt_of_le hmax (minSum_le_total _ hnd h102 n hinv)
    rw [shrinkLoop, if_pos htot]
    by_cases hpos : 0 < n (sd k % MAX_ELEM)
    · rw [if_pos hpos]
      rcases hm : (compGet cfg.element_composition (sd k % MAX_ELEM)).1 with _ | m
      · exact ih (k + 1) n hinv
      · show (if m < n (sd k % MAX_ELEM) then
            shrinkLoop cfg sd (k + 1)
              (Function.update n (sd k % MAX_ELEM) (n (sd k % MAX_ELEM) - 1)) f
            else shrinkLoop cfg sd (k + 1) n f) = none
        by_cases hlt : m < n (sd k % MAX_ELEM)
        · rw [if_pos hlt]
          apply ih (k + 1)
          intro i m' hm'
          by_cases hii : i = sd k % MAX_ELEM
          · subst hii
            rw [hm'] at hm
            injection hm with hm
            subst hm
            rw [Function.update_same]
            omega
          · rw [Function.update_noteq (fun hh => hii hh)]
            exact hinv i m' hm'
        · rw [if_neg hlt]
          exact ih (k + 1) n hinv
    · rw [if_neg hpos]
      exact ih (k + 1) n hinv

theorem shrink_no_min_none (cfg : GenerateConfig) (sd : ℕ → ℕ)
    (hnomin : ∀ i, (compGet cfg.element_composition i).1 = none) (n : ℕ → ℕ)
    (hmax : cfg.max_num_atoms < total n) :
    ∀ fuel k, shrinkLoop cfg sd k n fuel = none := by
  intro fuel
  induction fuel with
  | zero =>
    intro k
    rw [shrinkLoop, if_pos hmax]
  | succ f ih =>
    intro k
    rw [shrinkLoop, if_pos hmax]
    by_cases hpos : 0 < n (sd k % MAX_ELEM)
    · rw [if_pos hpos, hnomin (sd k % MAX_ELEM)]
      exact ih (k + 1)
    · rw [if_neg hpos]
      exact ih (k + 1)

/-- Helper: when `max_num_atoms` is below the sum of configured minimums of
a well-formed composition map (distinct keys below 102, minimum not above
maximum where both are present), the composition sampler never returns. -/
theorem gen_none_of_minSum_gt (cfg : GenerateConfig)
    (hnd : (cfg.element_composition.map Prod.fst).Nodup)
    (h102 : ∀ p ∈ cfg.element_composition, p.1 < 102)
    (hcons : ∀ p ∈ cfg.element_composition, ∀ m mx,
      p.2.1 = some m → p.2.2 = some mx → m ≤ mx)
    (hmax : cfg.max_num_atoms < minSum cfg.element_composition)
    (s : RandSrc) (fuel : ℕ) : generate_atom_list cfg s fuel = none := by
  rcases hstage : stage_clamp cfg s with _ | nc
  · rw [generate_atom_list, hstage, Option.none_bind]
  · have hinvc : ∀ i m, (compGet cfg.element_composition i).1 = some m → m ≤ nc i := by
      intro i m hm
      rw [stage_clamp] at hstage
      rcases Option.map_eq_some'.mp hstage with ⟨nb, _, hnc⟩
      rcases hlk : cfg.element_composition.lookup i with _ | v
      · rw [compGet, hlk] at hm
        cases hm
      · have hmem : (i, v) ∈ cfg.element_composition := lookup_mem _ i v hlk
        have hv1 : v.1 = some m := by
          rw [compGet, hlk, Option.getD_some] at hm
          exact hm
        have := applyComposition_min cfg.element_composition hnd hcons nb (i, v) hmem m hv1
        rw [hnc] at this
        exact this
    rw [generate_atom_list, hstage, Option.some_bind]
    rcases hgrow : growLoop cfg s.growChoice 0 nc fuel with _ | ng
    · rw [Option.none_bind]
    · rw [Option.some_bind]
      have hge := growLoop_ge cfg s.growChoice fuel 0 nc ng hgrow
      have hinvg : ∀ i m, (compGet cfg.element_composition i).1 = some m → m ≤ ng i :=
        fun i m hm => le_trans (hinvc i m hm) (hge i)
      exact shrinkLoop_none_of_inv cfg s.shrinkDraw hnd h102 hmax fuel 0 ng hinvg

/-- C1: in the shrink loop, a drawn element whose count is nonzero but has
no configured minimum is NEVER decremented — the code's condition is
`min_limit is not None and natoms[i] > min_limit`, so (contrary to the
claim) the loop makes no progress on such an element and, here, never
terminates: at a state with 3 atoms of element 4, `max_num_atoms = 2`, an
empty composition map and every draw hitting element 4, the count stays 3
and the loop returns for no fuel bound. -/
theorem C1_shrink_no_decrement_without_min :
    0 < natomsThree 4 ∧ (compGet cfgSmallMax.element_composition 4).1 = none ∧
      cfgSmallMax.max_num_atoms < total natomsThree ∧
      ∀ fuel k, shrinkLoop cfgSmallMax (fun _ => 4) k natomsThree fuel = none := by
  refine ⟨by decide, rfl, by decide, ?_⟩
  exact shrink_no_min_none cfgSmallMax (fun _ => 4) (fun i => rfl) natomsThree (by decide)

/-- C3: counterexample to guaranteed termination.  `cfgSmallMax` satisfies
the claim's precondition (`max_num_atoms = 2` is at least the sum 0 of
configured minimums), yet on the draws of `srcTwelve` the state entering
the loops totals 12 atoms and the shrink loop can never decrement anything
(no minimums are configured), so the sampler never returns. -/
theorem C3_shrink_loop_never_terminates :
    minSum cfgSmallMax.element_composition ≤ cfgSmallMax.max_num_atoms ∧
      (stage_clamp cfgSmallMax srcTwelve).elim 0 total = 12 ∧
      ∀ fuel, generate_atom_list cfgSmallMax srcTwelve fuel = none := by
  refine ⟨by decide, by decide, ?_⟩
  intro fuel
  rcases hstage : stage_clamp cfgSmallMax srcTwelve with _ | nc
  · rw [generate_atom_list, hstage, Option.none_bind]
  · have htot : total nc = 12 := by
      have hd : (stage_clamp cfgSmallMax srcTwelve).elim 0 total = 12 := by decide
      rw [hstage] at hd
      exact hd
    rw [generate_atom_list, hstage, Option.some_bind]
    have hgrow : growLoop cfgSmallMax srcTwelve.growChoice 0 nc fuel = some nc := by
      rw [growLoop.eq_def, if_neg (by rw [htot]; decide)]
    rw [hgrow, Option.some_bind]
    exact shrink_no_min_none cfgSmallMax srcTwelve.shrinkDraw (fun i => rfl) nc
      (by rw [htot]; decide) fuel 0

/-- Helper fact: the single entry of `cfgMinHigh`'s composition map has no
configured maximum, so the min-max consistency condition holds vacuously. -/
theorem cfgMinHigh_cons : ∀ p ∈ cfgMinHigh.element_composition, ∀ m mx : ℕ,
    p.2.1 = some m → p.2.2 = some mx → m ≤ mx := by
  intro p hp m mx h1 h2
  replace hp : p ∈ [((0 : ℕ), (some 5, (none : Option ℕ)))] := hp
  rw [List.mem_singleton] at hp
  subst hp
  cases h2

/-- C4 counterexample: with `element_composition = {0: (5, None)}` and
`max_num_atoms = 2` (so the sum of configured minimums, 5, exceeds the
maximum), the sampler raises no configuration error: it reaches the shrink
loop (the pre-loop stages all produce a state) and then never returns —
the opposite of "detected and reported as a fatal configuration error
before entering the shrink loop". -/
theorem C4_counterexample :
    cfgMinHigh.max_num_atoms < minSum cfgMinHigh.element_composition ∧
      (stage_clamp cfgMinHigh srcOneH).isSome = true ∧
      ∀ fuel, generate_atom_list cfgMinHigh srcOneH fuel = none := by
  refine ⟨by decide, by decide, ?_⟩
  intro fuel
  exact gen_none_of_minSum_gt cfgMinHigh (by decide) (by decide) cfgMinHigh_cons (by decide)
    srcOneH fuel

/-- C4 (amended): the composition sampler performs no precondition check at
all.  When `max_num_atoms` is below the sum of configured per-element
minimums (for a well-formed composition map: distinct keys below 102,
minimum not above maximum when both are given), no error is reported and
the sampler never returns: the shrink loop spins without making progress. -/
theorem C4_no_detection_and_nontermination (cfg : GenerateConfig)
    (hnd : (cfg.element_composition.map Prod.fst).Nodup)
    (h102 : ∀ p ∈ cfg.element_composition, p.1 < 102)
    (hcons : ∀ p ∈ cfg.element_composition, ∀ m mx,
      p.2.1 = some m → p.2.2 = some mx → m ≤ mx)
    (hmax : cfg.max_num_atoms < minSum cfg.element_composition)
    (s : RandSrc) (fuel : ℕ) : generate_atom_list cfg s fuel = none :=
  gen_none_of_minSum_gt cfg hnd h102 hcons hmax s fuel

/-- C4 witness: the amended theorem applied at a concrete configuration. -/
theorem C4_no_detection_and_nontermination_witness :
    cfgMinHigh.max_num_atoms < minSum cfgMinHigh.element_composition ∧
      generate_atom_list cfgMinHigh srcZero 7 = none :=
  ⟨by decide, C4_no_detection_and_nontermination cfgMinHigh (by decide) (by decide)
    cfgMinHigh_cons (by decide) srcZero 7⟩

/-! ### Determinism: outputs depend only on the consumed draws -/

theorem addRounds_congr (cfg : GenerateConfig) (s1 s2 : RandSrc) :
    ∀ ks, (∀ k ∈ ks, s1.addChoice k = s2.addChoice k ∧ s1.addCount k = s2.addCount k) →
      ∀ n, addRounds cfg s1 ks n = addRounds cfg s2 ks n := by
  intro ks
  induction ks with
  | nil => intro _ n; rfl
  | cons k rest ih =>
    intro h n
    have hk := h k (List.mem_cons_self _ _)
    have hstep : addStep cfg s1 n k = addStep cfg s2 n k := by
      rw [addStep, addStep, hk.1, hk.2]
    rw [addRounds, addRounds, hstep]
    rcases h2 : addStep cfg s2 n k with _ | n'
    · rfl
    · rw [Option.some_bind, Option.some_bind]
      exact ih (fun k' hk' => h k' (List.mem_cons_of_mem _ hk')) n'

theorem pbRounds_congr (s1 s2 : RandSrc) :
    ∀ ks, (∀ k ∈ ks, s1.pbElem k = s2.pbElem k ∧ s1.pbCount k = s2.pbCount k) →
      ∀ n, pbRounds s1 ks n = pbRounds s2 ks n := by
  intro ks
  induction ks with
  | nil => intro _ n; rfl
  | cons k rest ih =>
    intro h n
    have hk := h k (List.mem_cons_self _ _)
    have hstep : pblockStep s1 n k = pblockStep s2 n k := by
      rw [pblockStep, pblockStep, hk.1, hk.2]
    rw [pbRounds, pbRounds, hstep]
    exact ih (fun k' hk' => h k' (List.mem_cons_of_mem _ hk')) _

theorem growLoop_congr (cfg : GenerateConfig) (gc1 gc2 : ℕ → ℕ) :
    ∀ fuel k, (∀ j, k ≤ j → j < k + fuel → gc1 j = gc2 j) →
      ∀ n, growLoop cfg gc1 k n fuel = growLoop cfg gc2 k n fuel := by
  intro fuel
  induction fuel with
  | zero => intro k _ n; rfl
  | succ f ih =>
    intro k h n
    rw [growLoop, growLoop]
    by_cases hc : total n < cfg.min_num_atoms
    · rw [if_pos hc, if_pos hc]
      rw [h k le_rfl (by omega)]
      rcases hch : choose (validElems cfg) (gc2 k) with _ | ati
      · rfl
      · have hrec := ih (k + 1) (fun j hj1 hj2 => h j (by omega) (by omega))
        show (match (compGet cfg.element_composition ati).2 with
            | some mx =>
              if mx ≤ n ati then growLoop cfg gc1 (k + 1) n f
              else growLoop cfg gc1 (k + 1) (Function.update n ati (n ati + 1)) f
            | none =>
              growLoop cfg gc1 (k + 1) (Function.update n ati (n ati + 1)) f) =
          (match (compGet cfg.element_composition ati).2 with
            | some mx =>
              if mx ≤ n ati then growLoop cfg gc2 (k + 1) n f
              else growLoop cfg gc2 (k + 1) (Function.update n ati (n ati + 1)) f
            | none =>
              growLoop cfg gc2 (k + 1) (Function.update n ati (n ati + 1)) f)
        rcases hmx : (compGet cfg.element_composition ati).2 with _ | mx
        · exact hrec _
        · show (if mx ≤ n ati then growLoop cfg gc1 (k + 1) n f
              else growLoop cfg gc1 (k + 1) (Function.update n ati (n ati + 1)) f) =
            (if mx ≤ n ati then growLoop cfg gc2 (k + 1) n f
              else growLoop cfg gc2 (k + 1) (Function.update n ati (n ati + 1)) f)
          by_cases hge : mx ≤ n ati
          · rw [if_pos hge, if_pos hge]
            exact hrec n
          · rw [if_neg hge, if_neg hge]
            exact hrec _
    · rw [if_neg hc, if_neg hc]

theorem shrinkLoop_congr (cfg : GenerateConfig) (sd1 sd2 : ℕ → ℕ) :
    ∀ fuel k, (∀ j, k ≤ j → j < k + fuel → sd1 j = sd2 j) →
      ∀ n, shrinkLoop cfg sd1 k n fuel = shrinkLoop cfg sd2 k n fuel := by
  intro fuel
  induction fuel with
  | zero => intro k _ n; rfl
  | succ f ih =>
    intro k h n
    rw [shrinkLoop, shrinkLoop]
    by_cases hc : cfg.max_num_atoms < total n
    · rw [if_pos hc, if_pos hc]
      rw [h k le_rfl (by omega)]
      have hrec := ih (k + 1) (fun j hj1 hj2 => h j (by omega) (by omega))
      by_cases hpos : 0 < n (sd2 k % MAX_ELEM)
      · rw [if_pos hpos, if_pos hpos]
        rcases hm : (compGet cfg.element_composition (sd2 k % MAX_ELEM)).1 with _ | m
        · exact hrec n
        · show (if m < n (sd2 k % MAX_ELEM) then
              shrinkLoop cfg sd1 (k + 1)
                (Function.update n (sd2 k % MAX_ELEM) (n (sd2 k % MAX_ELEM) - 1)) f
              else shrinkLoop cfg sd1 (k + 1) n f) =
            (if m < n (sd2 k % MAX_ELEM) then
              shrinkLoop cfg sd2 (k + 1)
                (Function.update n (sd2 k % MAX_ELEM) (n (sd2 k % MAX_ELEM) - 1)) f
              else shrinkLoop cfg sd2 (k + 1) n f)
          by_cases hlt : m < n (sd2 k % MAX_ELEM)
          · rw [if_pos hlt, if_pos hlt]
            exact hrec _
          · rw [if_neg hlt, if_neg hlt]
            exact hrec n
      · rw [if_neg hpos, if_neg hpos]
        exact hrec n
    · rw [if_neg hc, if_neg hc]

theorem coordLoop_congr (atl : List ℕ) (threshold inc : ℚ) (G1 G2 : ℕ → ℕ → ℚ) :
    ∀ fuel k eff xyz, (∀ m, k ≤ m → m < k + fuel → G1 m = G2 m) →
      coordLoop atl threshold inc G1 eff xyz k fuel =
        coordLoop atl threshold inc G2 eff xyz k fuel := by
  intro fuel
  induction fuel with
  | zero => intro k eff xyz _; rfl
  | succ f ih =>
    intro k eff xyz h
    rw [coordLoop, coordLoop]
    by_cases hc : check_distances xyz threshold = true
    · rw [if_pos hc, if_pos hc]
    · rw [if_neg hc, if_neg hc, h k le_rfl (by omega)]
      exact ih (k + 1) _ _ (fun m hm1 hm2 => h m (by omega) (by omega))

theorem generate_atom_list_congr (cfg : GenerateConfig) (s1 s2 : RandSrc) (fuel : ℕ)
    (hnr : s1.nrounds = s2.nrounds)
    (hac : ∀ k < 6, s1.addChoice k = s2.addChoice k)
    (hcnt : ∀ k < 6, s1.addCount k = s2.addCount k)
    (hpe : ∀ k < 5, s1.pbElem k = s2.pbElem k)
    (hpc : ∀ k < 5, s1.pbCount k = s2.pbCount k)
    (hh : s1.hdraw = s2.hdraw)
    (hgc : ∀ k < fuel, s1.growChoice k = s2.growChoice k)
    (hsd : ∀ k < fuel, s1.shrinkDraw k = s2.shrinkDraw k) :
    generate_atom_list cfg s1 fuel = generate_atom_list cfg s2 fuel := by
  have hadd : stage_add cfg s1 = stage_add cfg s2 := by
    rw [stage_add, stage_add, hnr]
    apply addRounds_congr
    intro k hk
    rw [List.mem_range] at hk
    have hk6 : k < 6 := by
      have : s2.nrounds % 6 < 6 := Nat.mod_lt _ (by omega)
      omega
    exact ⟨hac k hk6, hcnt k hk6⟩
  have hmetal : stage_metal cfg s1 = stage_metal cfg s2 := by
    rw [stage_metal, stage_metal, hadd]
  have hpb : stage_pblock cfg s1 = stage_pblock cfg s2 := by
    rw [stage_pblock, stage_pblock, hmetal]
    rcases stage_metal cfg s2 with _ | n
    · rfl
    · rw [Option.map_some', Option.map_some',
        pbRounds_congr s1 s2 (List.range 5)
          (fun k hk => ⟨hpe k (List.mem_range.mp hk), hpc k (List.mem_range.mp hk)⟩) n]
  have hbf : stage_backfill cfg s1 = stage_backfill cfg s2 := by
    rw [stage_backfill, stage_backfill, hpb, hh]
  have hclamp : stage_clamp cfg s1 = stage_clamp cfg s2 := by
    rw [stage_clamp, stage_clamp, hbf]
  rw [generate_atom_list, generate_atom_list, hclamp]
  rcases stage_clamp cfg s2 with _ | nc
  · rfl
  · rw [Option.some_bind, Option.some_bind,
      growLoop_congr cfg s1.growChoice s2.growChoice fuel 0
        (fun j _ hj => hgc j (by omega)) nc]
    rcases growLoop cfg s2.growChoice 0 nc fuel with _ | ng
    · rfl
    · rw [Option.some_bind, Option.some_bind,
        shrinkLoop_congr cfg s1.shrinkDraw s2.shrinkDraw fuel 0
          (fun j _ hj => hsd j (by omega)) ng]

theorem generate_coordinates_congr (atl : List ℕ) (scaling threshold inc : ℚ)
    (G1 G2 : ℕ → ℕ → ℚ) (fuel : ℕ) (hG : ∀ m ≤ fuel, ∀ j, G1 m j = G2 m j) :
    generate_coordinates atl scaling threshold inc G1 fuel =
      generate_coordinates atl scaling threshold inc G2 fuel := by
  have hG0 : G1 0 = G2 0 := funext (hG 0 (Nat.zero_le _))
  rw [generate_coordinates, generate_coordinates, hG0]
  exact coordLoop_congr atl threshold inc G1 G2 fuel 1 _ _
    (fun m hm1 hm2 => funext (hG m (by omega)))

/-- C8: the two samplers are deterministic functions of the configuration
and the pseudo-random draws: two runs whose random sources agree on every
draw the run can consume (the addition rounds consume at most 6 draws per
stream, the p-block boost 5, the backfill 1, and each while-loop iteration
one draw of its stream, bounded by the fuel) produce identical composition
vectors, coordinate sequences and element-index sequences. -/
theorem C8_deterministic_replay (cfg : GenerateConfig) (s1 s2 : RandSrc)
    (G1 G2 : ℕ → ℕ → ℚ) (fuel : ℕ)
    (hnr : s1.nrounds = s2.nrounds)
    (hac : ∀ k < 6, s1.addChoice k = s2.addChoice k)
    (hcnt : ∀ k < 6, s1.addCount k = s2.addCount k)
    (hpe : ∀ k < 5, s1.pbElem k = s2.pbElem k)
    (hpc : ∀ k < 5, s1.pbCount k = s2.pbCount k)
    (hh : s1.hdraw = s2.hdraw)
    (hgc : ∀ k < fuel, s1.growChoice k = s2.growChoice k)
    (hsd : ∀ k < fuel, s1.shrinkDraw k = s2.shrinkDraw k)
    (hG : ∀ m ≤ fuel, ∀ j, G1 m j = G2 m j) :
    generate_atom_list cfg s1 fuel = generate_atom_list cfg s2 fuel ∧
      generateMolecule cfg s1 G1 fuel = generateMolecule cfg s2 G2 fuel := by
  have hgen := generate_atom_list_congr cfg s1 s2 fuel hnr hac hcnt hpe hpc hh hgc hsd
  refine ⟨hgen, ?_⟩
  rw [generateMolecule, generateMolecule, hgen]
  rcases generate_atom_list cfg s2 fuel with _ | v
  · rfl
  · rw [Option.some_bind, Option.some_bind,
      generate_coordinates_congr (comp102 v) cfg.init_coord_scaling cfg.dist_threshold
        cfg.increase_scaling_factor G1 G2 fuel hG]

/-- C8 witness: the theorem applied to one concrete source used twice. -/
theorem C8_deterministic_replay_witness :
    generate_atom_list cfgPlain srcOneH 3 = generate_atom_list cfgPlain srcOneH 3 ∧
      generateMolecule cfgPlain srcOneH gZero 3 =
        generateMolecule cfgPlain srcOneH gZero 3 :=
  C8_deterministic_replay cfgPlain srcOneH srcOneH gZero gZero 3 rfl
    (fun _ _ => rfl) (fun _ _ => rfl) (fun _ _ => rfl) (fun _ _ => rfl) rfl
    (fun _ _ => rfl) (fun _ _ => rfl) (fun _ _ _ => rfl)

end MindlessGen
